import Mathlib

/-!
Verification development for the EncPedPop encryption layer of the
bip-frost-dkg repository (files `python/chilldkg_ref/encpedpop.py`, the
primary nonce-based variant, and `reference/encpedpop.py`, the older
one-ECDH-per-recipient-pair variant).

Modelling conventions:
* Python `bytes` is modelled as `List Nat` (a list of byte values).
* The secp256k1 `Scalar` type is `ZMod secp256k1_order`.
* Python exceptions are modelled with `Except PyError`: `IndexError`,
  `ValueError` and `InvalidContributionError(participant, msg)`.
* The elliptic-curve, hash and PRF primitives are external libraries
  (`secp256k1proto`); they are modelled as an abstract structure `Prims` of
  functions.  The raw Diffie-Hellman computation may fail with `ValueError`
  on a malformed public key, hence it returns `Option Bytes`.
* The secret-sharing core `simplpedpop` is declared an external collaborator
  by the specification and its code is not among the source files; it is
  modelled from the spec as an abstract interface structure `SimplPedPop`.
-/

/-- The order of the secp256k1 group, i.e. the modulus of `Scalar`. -/
def secp256k1_order : Nat :=
  115792089237316195423570985008687907852837564279074904382605163141518161494337

/-- Field elements mod the curve order (`secp256k1proto.secp256k1.Scalar`). -/
abbrev Scalar : Type := ZMod secp256k1_order

/-- Python `bytes`, as a list of byte values. -/
abbrev Bytes : Type := List Nat

/-- The Python exceptions that the EncPedPop code can raise. -/
inductive PyError : Type where
  | indexError : PyError
  | valueError : PyError
  | invalidContribution (participant : Option Nat) (msg : String) : PyError
deriving DecidableEq

/-- The external `secp256k1proto` primitives consumed by EncPedPop, as an
abstract bundle of functions.  `ecdh_libsecp256k1 seckey pubkey` returns
`none` exactly when the Python primitive raises `ValueError` (e.g. the public
key fails to decode as a curve point); `ecdh_raw_compressed` plays the same
role for the older variant (`ecdh_raw(...)` followed by compressed-point
serialization). -/
structure Prims : Type where
  ecdh_libsecp256k1 : Bytes → Bytes → Option Bytes
  ecdh_raw_compressed : Bytes → Bytes → Option Bytes
  pubkey_gen_plain : Bytes → Bytes
  tagged_hash_bip_dkg : String → Bytes → Bytes
  prf : Bytes → String → Bytes → Bytes
  int_from_bytes : Bytes → Nat

/-- `i.to_bytes(4, byteorder="big")`. -/
def toBytes4 (i : Nat) : Bytes :=
  [i / 2 ^ 24 % 256, i / 2 ^ 16 % 256, i / 2 ^ 8 % 256, i % 256]

/-- `ecdh` from `chilldkg_ref/encpedpop.py`: raw DH data, then the two public
keys ordered by the `sending` flag, then the context, hashed to a `Scalar`.
A `ValueError` from the DH primitive propagates. -/
def ecdh (P : Prims) (seckey my_pubkey their_pubkey context : Bytes)
    (sending : Bool) : Except PyError Scalar :=
  match P.ecdh_libsecp256k1 seckey their_pubkey with
  | none => .error .valueError
  | some data0 =>
    let data1 := if sending then data0 ++ (my_pubkey ++ their_pubkey)
      else data0 ++ (their_pubkey ++ my_pubkey)
    let data := data1 ++ context
    .ok ((P.int_from_bytes (P.tagged_hash_bip_dkg ("encpedpop ecdh") data) : Scalar))

/-- `self_pad` from `chilldkg_ref/encpedpop.py`: a pad derived by the keyed
PRF from the decryption key and the per-recipient context alone. -/
def self_pad (P : Prims) (deckey context_ : Bytes) : Scalar :=
  (P.int_from_bytes (P.prf deckey ("encaps_multi self_pad") context_) : Scalar)

/-- `encaps_multi` from `chilldkg_ref/encpedpop.py`: one pad per recipient
position `i`, with per-recipient context `toBytes4 i ++ context`; position
`idx` (the sender itself) uses `self_pad`, every other position uses `ecdh`
with `sending = true`.  The first `ValueError` aborts the whole call. -/
def encaps_multi (P : Prims) (secnonce pubnonce deckey : Bytes)
    (enckeys : List Bytes) (context : Bytes) (idx : Nat) :
    Except PyError (List Scalar) :=
  enckeys.enum.mapM (fun ie =>
    let context_ := toBytes4 ie.1 ++ context
    if ie.1 = idx then pure (self_pad P deckey context_)
    else ecdh P secnonce pubnonce ie.2 context_ true)

/-- `encrypt_multi` from `chilldkg_ref/encpedpop.py`: computes the pads and
adds them to the messages; `zip(..., strict=True)` raises `ValueError` when
the two lengths differ. -/
def encrypt_multi (P : Prims) (secnonce pubnonce deckey : Bytes)
    (enckeys : List Bytes) (messages : List Scalar) (context : Bytes)
    (idx : Nat) : Except PyError (List Scalar) :=
  match encaps_multi P secnonce pubnonce deckey enckeys context idx with
  | .error e => .error e
  | .ok pads =>
    if messages.length = pads.length then
      .ok (List.zipWith (fun message pad => message + pad) messages pads)
    else .error .valueError

/-- The `for i, pubnonce in enumerate(pubnonces)` loop of `decrypt_sum`:
subtract one pad per sender from the running sum, `self_pad` at the own
index and receiver-side `ecdh` (`sending = false`) elsewhere. -/
def decrypt_sum_loop (P : Prims) (deckey enckey context_ : Bytes) (idx : Nat) :
    Scalar → List (Nat × Bytes) → Except PyError Scalar
  | acc, [] => .ok acc
  | acc, ip :: rest =>
    match (if ip.1 = idx then .ok (self_pad P deckey context_)
      else ecdh P deckey enckey ip.2 context_ false : Except PyError Scalar) with
    | .error e => .error e
    | .ok pad => decrypt_sum_loop P deckey enckey context_ idx (acc - pad) rest

/-- `decrypt_sum` from `chilldkg_ref/encpedpop.py`: raises `IndexError` when
`idx >= len(pubnonces)`, otherwise subtracts every sender's pad (derived with
the per-recipient context of index `idx`) from the aggregated ciphertext. -/
def decrypt_sum (P : Prims) (deckey enckey : Bytes) (pubnonces : List Bytes)
    (sum_ciphertexts : Scalar) (context : Bytes) (idx : Nat) :
    Except PyError Scalar :=
  if pubnonces.length ≤ idx then .error .indexError
  else
    let context_ := toBytes4 idx ++ context
    decrypt_sum_loop P deckey enckey context_ idx sum_ciphertexts pubnonces.enum

/-- Modelled from the spec: the secret-sharing core ("SimplPedPop") is an
external collaborator whose code is not among the source files; only its
documented interface is consumed:
`step1(seed, t, n, idx) -> (state, message, shares[n])`,
`step2(state, coordinator_message, total_share) -> (dkg_output, transcript_fragment)`,
`coordinator_step(messages, t, n) -> (message, dkg_output, transcript_fragment)`;
a participant state records the threshold `t` (read as `simpl_state.t`). -/
structure SimplPedPop : Type 1 where
  PMsg : Type
  CMsg : Type
  PState : Type
  Output : Type
  t : PState → Nat
  participant_step1 : Bytes → Nat → Nat → Nat → PState × PMsg × List Scalar
  participant_step2 : PState → CMsg → Scalar → Output × Bytes
  coordinator_step : List PMsg → Nat → Nat → CMsg × Output × Bytes

/-- `encpedpop.ParticipantMsg`. -/
structure ParticipantMsg (S : SimplPedPop) : Type where
  simpl_pmsg : S.PMsg
  pubnonce : Bytes
  enc_shares : List Scalar

/-- `encpedpop.CoordinatorMsg`. -/
structure CoordinatorMsg (S : SimplPedPop) : Type where
  simpl_cmsg : S.CMsg
  pubnonces : List Bytes

/-- `encpedpop.ParticipantState`. -/
structure ParticipantState (S : SimplPedPop) : Type where
  simpl_state : S.PState
  pubnonce : Bytes
  enckeys : List Bytes
  idx : Nat

/-- `serialize_enc_context`: `t` as 4 big-endian bytes followed by the
concatenation of all encryption keys. -/
def serialize_enc_context (t : Nat) (enckeys : List Bytes) : Bytes :=
  toBytes4 t ++ enckeys.flatten

/-- `derive_simpl_seed`. -/
def derive_simpl_seed (P : Prims) (seed pubnonce enc_context : Bytes) : Bytes :=
  P.prf seed ("encpedpop seed") (pubnonce ++ enc_context)

/-- `participant_step1` from `chilldkg_ref/encpedpop.py`: derives the session
context, a synthetic encryption nonce, the SimplPedPop seed, runs the core's
step 1, encrypts the resulting shares, and returns state and message.  (The
Python `assert` statements, which are debug-mode sanity checks, are not part
of the functional model.) -/
def participant_step1 (S : SimplPedPop) (P : Prims) (seed deckey : Bytes)
    (enckeys : List Bytes) (t : Nat) (idx : Nat) (random : Bytes) :
    Except PyError (ParticipantState S × ParticipantMsg S) :=
  let n := enckeys.length
  let enc_context := serialize_enc_context t enckeys
  let secnonce := P.prf seed ("encpodpop secnonce") (random ++ enc_context)
  let pubnonce := P.pubkey_gen_plain secnonce
  let simpl_seed := derive_simpl_seed P seed pubnonce enc_context
  let res := S.participant_step1 simpl_seed t n idx
  let simpl_state := res.1
  let simpl_pmsg := res.2.1
  let shares := res.2.2
  match encrypt_multi P secnonce pubnonce deckey enckeys shares enc_context idx with
  | .error e => .error e
  | .ok enc_shares =>
    .ok (⟨simpl_state, pubnonce, enckeys, idx⟩, ⟨simpl_pmsg, pubnonce, enc_shares⟩)

/-- `participant_step2` from `chilldkg_ref/encpedpop.py`: first compares the
pubnonce the coordinator reports at the participant's own index with the
stored one (mismatch: `InvalidContributionError(None, ...)`), then decrypts
the aggregated ciphertext and finalizes via the core.  Out-of-range list
accesses raise `IndexError` as in Python. -/
def participant_step2 (S : SimplPedPop) (P : Prims)
    (state : ParticipantState S) (deckey : Bytes) (cmsg : CoordinatorMsg S)
    (enc_secshare : Scalar) : Except PyError (S.Output × Bytes) :=
  if h : state.idx < cmsg.pubnonces.length then
    let reported_pubnonce := cmsg.pubnonces.get ⟨state.idx, h⟩
    if reported_pubnonce ≠ state.pubnonce then
      .error (.invalidContribution none ("Coordinator replied with wrong pubnonce"))
    else
      if h2 : state.idx < state.enckeys.length then
        let enc_context := serialize_enc_context (S.t state.simpl_state) state.enckeys
        match decrypt_sum P deckey (state.enckeys.get ⟨state.idx, h2⟩)
            cmsg.pubnonces enc_secshare enc_context state.idx with
        | .error e => .error e
        | .ok secshare =>
          let res := S.participant_step2 state.simpl_state cmsg.simpl_cmsg secshare
          .ok (res.1, res.2 ++ state.enckeys.flatten ++ cmsg.pubnonces.flatten)
      else .error .indexError
  else .error .indexError

/-- `coordinator_step` from `chilldkg_ref/encpedpop.py`: a count mismatch
between keys and messages raises `ValueError`; then the core's coordinator
step runs; then every participant's `enc_shares` vector is checked to have
length `n` (violation: `InvalidContributionError(i, ...)`); finally the
per-recipient sums are formed and the transcript is extended. -/
def coordinator_step (S : SimplPedPop) (pmsgs : List (ParticipantMsg S))
    (t : Nat) (enckeys : List Bytes) :
    Except PyError (CoordinatorMsg S × S.Output × Bytes × List Scalar) :=
  let n := enckeys.length
  if n ≠ pmsgs.length then .error .valueError
  else
    let res := S.coordinator_step (pmsgs.map (fun pmsg => pmsg.simpl_pmsg)) t n
    let simpl_cmsg := res.1
    let dkg_output := res.2.1
    let eq_input := res.2.2
    let pubnonces := pmsgs.map (fun pmsg => pmsg.pubnonce)
    match pmsgs.enum.find? (fun ip => ip.2.enc_shares.length != n) with
    | some ip =>
      .error (.invalidContribution (some ip.1)
        ("Participant sent enc_shares with invalid length"))
    | none =>
      let enc_secshares := (List.range n).map (fun i =>
        (pmsgs.map (fun pmsg => pmsg.enc_shares.getD i 0)).sum)
      .ok (⟨simpl_cmsg, pubnonces⟩, dkg_output,
        eq_input ++ enckeys.flatten ++ pubnonces.flatten, enc_secshares)

namespace Ref

/-- `ecdh` from the older `reference/encpedpop.py`: a single DH computation
between the long-term keys, hashed with the tag `"ECDH"` together with the
context.  `ValueError` from the DH primitive (e.g. an invalid encryption
key) propagates. -/
def ecdh (P : Prims) (deckey enckey context : Bytes) : Except PyError Scalar :=
  match P.ecdh_raw_compressed deckey enckey with
  | none => .error .valueError
  | some shared_secret =>
    .ok ((P.int_from_bytes
      (P.tagged_hash_bip_dkg ("ECDH") (shared_secret ++ context)) : Scalar))

/-- `encrypt` from the older `reference/encpedpop.py`. -/
def encrypt (P : Prims) (share : Scalar) (deckey enckey context : Bytes) :
    Except PyError Scalar :=
  match ecdh P deckey enckey context with
  | .error e => .error e
  | .ok pad => .ok (share + pad)

/-- `simplpedpop.Unicast1` wrapper of the older variant
(`reference/encpedpop.py`, class `Unicast1`). -/
structure Unicast1 (S : SimplPedPop) : Type where
  simpl_uni1 : S.PMsg
  enc_shares : List Scalar

/-- `SignerState1` of the older variant. -/
structure SignerState1 (S : SimplPedPop) : Type where
  t : Nat
  deckey : Bytes
  enckeys : List Bytes
  idx : Nat
  self_share : Scalar
  simpl_state : S.PState

/-- `signer_round1` from the older `reference/encpedpop.py`: derives the
session context and a fresh core seed, runs the core's round 1, then encrypts
each share except the own one (a constant `Scalar(0)` placeholder is sent to
the own index); a `ValueError` while encrypting to `enckeys[i]` is caught and
re-raised as `InvalidContributionError(i, "Participant sent invalid
encryption key")`.  (The Python `assert` statements are debug-mode sanity
checks and are not part of the functional model; note that the parameter `n`
is shadowed by `n = len(enckeys)` in the source.) -/
def signer_round1 (S : SimplPedPop) (P : Prims) (seed : Bytes) (t _n : Nat)
    (deckey : Bytes) (enckeys : List Bytes) (idx : Nat) :
    Except PyError (SignerState1 S × Unicast1 S) :=
  let n := enckeys.length
  let enc_context := toBytes4 t ++ enckeys.flatten
  let seed_ := P.tagged_hash_bip_dkg ("EncPedPop seed") (seed ++ enc_context)
  let res := S.participant_step1 seed_ t n idx
  let simpl_state := res.1
  let simpl_uni1 := res.2.1
  let shares := res.2.2
  match (List.range n).mapM (fun i =>
    (if i = idx then pure (0 : Scalar)
    else
      match encrypt P (shares.getD i 0) deckey (enckeys.getD i []) enc_context with
      | .error _ =>
        .error (.invalidContribution (some i)
          ("Participant sent invalid encryption key"))
      | .ok c => .ok c : Except PyError Scalar)) with
  | .error e => .error e
  | .ok enc_shares =>
    let self_share := shares.getD idx 0
    .ok (⟨t, deckey, enckeys, idx, self_share, simpl_state⟩,
      ⟨simpl_uni1, enc_shares⟩)

end Ref

/-- A trivial instance of the external secret-sharing core, used to evaluate
the protocol functions on concrete inputs. -/
def trivialSimpl : SimplPedPop where
  PMsg := Unit
  CMsg := Unit
  PState := Unit
  Output := Unit
  t := fun _ => 2
  participant_step1 := fun _ _ n _ => ((), (), List.replicate n 0)
  participant_step2 := fun _ _ _ => ((), [])
  coordinator_step := fun _ _ _ => ((), (), [])

/-- A small concrete instance of the external curve/hash primitives: public
keys are the secret keys themselves and the Diffie-Hellman output depends
only on the sum of the two keys' bytes, which makes the DH computation
symmetric; hashing is the identity on the data and `int_from_bytes` sums the
bytes. -/
def toyPrims : Prims where
  ecdh_libsecp256k1 := fun a b => some [a.sum + b.sum]
  ecdh_raw_compressed := fun a b => some [a.sum + b.sum]
  pubkey_gen_plain := fun s => s
  tagged_hash_bip_dkg := fun _ data => data
  prf := fun seed _ extra => seed ++ extra
  int_from_bytes := fun b => b.sum

/-- A variant of `toyPrims` whose Diffie-Hellman computation rejects the
public key `[99]`, modelling an encryption key that fails to decode as a
curve point. -/
def failPrims : Prims :=
  { toyPrims with
    ecdh_libsecp256k1 := fun a b => if b = [99] then none else some [a.sum + b.sum]
    ecdh_raw_compressed := fun a b => if b = [99] then none else some [a.sum + b.sum] }

/-- Whether an `Except` computation finished without raising. -/
def exceptOk {ε α : Type} : Except ε α → Bool
  | .ok _ => true
  | .error _ => false

/-- The toy Diffie-Hellman computation is symmetric on valid keypairs. -/
lemma toyPrims_dh_symm (a b : Bytes) :
    toyPrims.ecdh_libsecp256k1 a (toyPrims.pubkey_gen_plain b)
      = toyPrims.ecdh_libsecp256k1 b (toyPrims.pubkey_gen_plain a) := by
  simp [toyPrims, Nat.add_comm]

/-- Characterization of a successful `mapM` in the `Except` monad: the output
has the input's length and each output entry is the successful image of the
corresponding input entry. -/
lemma mapM_eq_ok {α β ε : Type} (d : α) (e : β) {f : α → Except ε β} :
    ∀ {l : List α} {ys : List β}, l.mapM f = Except.ok ys →
      ys.length = l.length ∧
        ∀ i, i < l.length → f (l.getD i d) = Except.ok (ys.getD i e) := by
  intro l
  induction l with
  | nil =>
    intro ys h
    simp only [List.mapM_nil] at h
    cases h
    exact ⟨rfl, fun i hi => absurd hi (by simp)⟩
  | cons a l ih =>
    intro ys h
    rw [List.mapM_cons] at h
    cases hfa : f a with
    | error err => rw [hfa] at h; simp [Bind.bind, Except.bind] at h
    | ok b =>
      rw [hfa] at h
      cases hl : l.mapM f with
      | error err =>
        rw [hl] at h
        simp [Bind.bind, Except.bind, Pure.pure, Except.pure] at h
      | ok bs =>
        rw [hl] at h
        simp only [Bind.bind, Except.bind, Pure.pure, Except.pure] at h
        cases h
        obtain ⟨hlen, hget⟩ := ih hl
        refine ⟨by simp [hlen], ?_⟩
        intro i hi
        cases i with
        | zero => simpa using hfa
        | succ j =>
          simp only [List.getD_cons_succ]
          exact hget j (by simpa using hi)

/-- A `mapM` in the `Except` monad fails with the error produced at the first
failing position: if every position before `i` succeeds and position `i`
fails with `err`, the whole `mapM` fails with `err`. -/
lemma mapM_eq_error {α β ε : Type} (d : α) {f : α → Except ε β} {err : ε} :
    ∀ (l : List α) (i : Nat), i < l.length →
      (∀ k, k < i → ∃ b, f (l.getD k d) = Except.ok b) →
      f (l.getD i d) = Except.error err →
      l.mapM f = Except.error err := by
  intro l
  induction l with
  | nil => intro i hi; simp at hi
  | cons a l ih =>
    intro i hi hpre herr
    rw [List.mapM_cons]
    cases i with
    | zero =>
      simp only [List.getD_cons_zero] at herr
      rw [herr]
      simp [Bind.bind, Except.bind]
    | succ j =>
      obtain ⟨b, hb⟩ := hpre 0 (Nat.succ_pos j)
      simp only [List.getD_cons_zero] at hb
      rw [hb]
      simp only [List.getD_cons_succ] at herr
      have : l.mapM f = Except.error err := by
        refine ih j (by simpa using hi) ?_ herr
        intro k hk
        have := hpre (k + 1) (by omega)
        simpa using this
      rw [this]
      simp [Bind.bind, Except.bind]

/-- The subtraction loop of `decrypt_sum` succeeds exactly when every pad
computation succeeds, and then subtracts the sum of the pads. -/
lemma decrypt_sum_loop_eq_ok (P : Prims) (deckey enckey context_ : Bytes)
    (idx : Nat) (g : Nat × Bytes → Scalar) :
    ∀ (l : List (Nat × Bytes)) (acc : Scalar),
      (∀ ip, ip ∈ l →
        (if ip.1 = idx then Except.ok (self_pad P deckey context_)
          else ecdh P deckey enckey ip.2 context_ false) = Except.ok (g ip)) →
      decrypt_sum_loop P deckey enckey context_ idx acc l
        = Except.ok (acc - (l.map g).sum) := by
  intro l
  induction l with
  | nil => intro acc _; simp [decrypt_sum_loop]
  | cons ip rest ih =>
    intro acc h
    have hip := h ip (List.mem_cons_self ip rest)
    rw [decrypt_sum_loop, hip]
    show decrypt_sum_loop P deckey enckey context_ idx (acc - g ip) rest = _
    rw [ih (acc - g ip) (fun q hq => h q (List.mem_cons_of_mem ip hq))]
    congr 1
    simp only [List.map_cons, List.sum_cons]
    ring

/-- The subtraction loop of `decrypt_sum` never raises `IndexError` (its only
possible failure is the `ValueError` from a pad computation). -/
lemma decrypt_sum_loop_ne_indexError (P : Prims) (deckey enckey context_ : Bytes)
    (idx : Nat) :
    ∀ (l : List (Nat × Bytes)) (acc : Scalar),
      decrypt_sum_loop P deckey enckey context_ idx acc l
        ≠ Except.error PyError.indexError := by
  intro l
  induction l with
  | nil => intro acc h; cases h
  | cons ip rest ih =>
    intro acc
    rw [decrypt_sum_loop]
    by_cases hip : ip.1 = idx
    · rw [if_pos hip]
      exact ih _
    · rw [if_neg hip]
      unfold ecdh
      cases P.ecdh_libsecp256k1 deckey ip.2 with
      | none => intro h; cases h
      | some d => exact ih _

/-- C2: for every two valid keypairs `(secretA, pubA)` and `(secretB, pubB)`
and every context, the sender-side pad `ecdh(secretA, pubA, pubB, ctx,
sending := true)` equals the receiver-side pad `ecdh(secretB, pubB, pubA,
ctx, sending := false)`: the sender concatenates own-public then peer-public
while the receiver concatenates peer-public then own-public, so both hash
byte-identical input, given that the raw Diffie-Hellman computation is
symmetric on valid keypairs. -/
theorem C2_pad_symmetry (P : Prims)
    (hsymm : ∀ a b : Bytes, P.ecdh_libsecp256k1 a (P.pubkey_gen_plain b)
      = P.ecdh_libsecp256k1 b (P.pubkey_gen_plain a))
    (secretA secretB ctx : Bytes) :
    ecdh P secretA (P.pubkey_gen_plain secretA) (P.pubkey_gen_plain secretB)
        ctx true
      = ecdh P secretB (P.pubkey_gen_plain secretB) (P.pubkey_gen_plain secretA)
        ctx false := by
  unfold ecdh
  rw [hsymm secretA secretB]
  cases P.ecdh_libsecp256k1 secretB (P.pubkey_gen_plain secretA) with
  | none => rfl
  | some d => simp

/-- Witness for C2 on the concrete toy primitives with keypairs generated
from the secrets `[1]` and `[2]`. -/
theorem C2_pad_symmetry_witness :
    ecdh toyPrims [1] (toyPrims.pubkey_gen_plain [1])
        (toyPrims.pubkey_gen_plain [2]) [] true
      = ecdh toyPrims [2] (toyPrims.pubkey_gen_plain [2])
        (toyPrims.pubkey_gen_plain [1]) [] false :=
  C2_pad_symmetry toyPrims toyPrims_dh_symm [1] [2] []

/-- C7: when the number of participant messages differs from the number of
encryption keys, `coordinator_step` fails with `ValueError`, a structural
error that carries no participant index, before any aggregation. -/
theorem C7_count_mismatch (S : SimplPedPop) (pmsgs : List (ParticipantMsg S))
    (t : Nat) (enckeys : List Bytes)
    (h : enckeys.length ≠ pmsgs.length) :
    coordinator_step S pmsgs t enckeys = .error .valueError := by
  unfold coordinator_step
  rw [if_pos h]

/-- Witness for C7: one encryption key but zero participant messages. -/
theorem C7_count_mismatch_witness :
    coordinator_step trivialSimpl [] 2 [[1]] = .error .valueError :=
  C7_count_mismatch trivialSimpl [] 2 [[1]] (by decide)

/-- C9: `decrypt_sum` raises `IndexError` exactly for a recipient index out
of range: when `idx ≥ len(pubnonces)` the call fails with `IndexError`, and
when `idx < len(pubnonces)` that error is never raised (decryption proceeds;
any remaining failure is a `ValueError` from a pad computation, a different,
protocol-level condition). -/
theorem C9_index_guard (P : Prims) (deckey enckey : Bytes)
    (pubnonces : List Bytes) (sum_ciphertexts : Scalar) (context : Bytes)
    (idx : Nat) :
    (pubnonces.length ≤ idx →
      decrypt_sum P deckey enckey pubnonces sum_ciphertexts context idx
        = .error .indexError)
    ∧ (idx < pubnonces.length →
      decrypt_sum P deckey enckey pubnonces sum_ciphertexts context idx
        ≠ .error .indexError) := by
  constructor
  · intro h
    unfold decrypt_sum
    rw [if_pos h]
  · intro h
    unfold decrypt_sum
    rw [if_neg (by omega)]
    exact decrypt_sum_loop_ne_indexError P deckey enckey
      (toBytes4 idx ++ context) idx pubnonces.enum sum_ciphertexts

/-- Witness for C9: index 1 with an empty pubnonce list raises `IndexError`;
index 0 with a one-element pubnonce list does not. -/
theorem C9_index_guard_witness :
    decrypt_sum toyPrims [1] [1] [] 0 [] 1 = .error .indexError
    ∧ decrypt_sum toyPrims [1] [1] [[2]] 0 [] 0 ≠ .error .indexError :=
  ⟨(C9_index_guard toyPrims [1] [1] [] 0 [] 1).1 (by decide),
   (C9_index_guard toyPrims [1] [1] [[2]] 0 [] 0).2 (by decide)⟩

/-- C4: when the coordinator message reports, at the participant's own index,
a pubnonce different from the one stored in the step-1 state,
`participant_step2` fails with an `InvalidContributionError` whose
participant index is absent (attributing the fault to the coordinator),
whatever the decryption key and aggregated ciphertext are — so before any
decryption or finalization. -/
theorem C4_tamper_detection (S : SimplPedPop) (P : Prims)
    (state : ParticipantState S) (deckey : Bytes) (cmsg : CoordinatorMsg S)
    (enc_secshare : Scalar)
    (hlt : state.idx < cmsg.pubnonces.length)
    (hne : cmsg.pubnonces.get ⟨state.idx, hlt⟩ ≠ state.pubnonce) :
    participant_step2 S P state deckey cmsg enc_secshare
      = .error (.invalidContribution none
        ("Coordinator replied with wrong pubnonce")) := by
  unfold participant_step2
  rw [dif_pos hlt, if_pos hne]

/-- Witness for C4: the stored pubnonce is `[1]` but the coordinator reports
`[2]` at index 0. -/
theorem C4_tamper_detection_witness :
    participant_step2 trivialSimpl toyPrims ⟨(), [1], [[5]], 0⟩ [3] ⟨(), [[2]]⟩ 0
      = .error (.invalidContribution none
        ("Coordinator replied with wrong pubnonce")) :=
  C4_tamper_detection trivialSimpl toyPrims ⟨(), [1], [[5]], 0⟩ [3] ⟨(), [[2]]⟩ 0
    (by decide) (by decide)

/-- `getD` on an enumerated list, in range. -/
lemma enum_getD {α : Type} (l : List α) (i : Nat) (hi : i < l.length) (d : α) :
    l.enum.getD i (0, d) = (i, l.getD i d) := by
  simp [List.getD_eq_getElem?_getD, List.getElem?_enum, List.getElem?_eq_getElem hi]

/-- Splitting a successful `encrypt_multi` into its successful `encaps_multi`
call, the length agreement demanded by `zip(..., strict=True)`, and the
pointwise masking. -/
lemma encrypt_multi_ok_parts (P : Prims) (secnonce pubnonce deckey : Bytes)
    (enckeys : List Bytes) (messages : List Scalar) (context : Bytes)
    (idx : Nat) (cts : List Scalar)
    (h : encrypt_multi P secnonce pubnonce deckey enckeys messages context idx
      = .ok cts) :
    ∃ pads, encaps_multi P secnonce pubnonce deckey enckeys context idx = .ok pads
      ∧ messages.length = pads.length
      ∧ cts = List.zipWith (fun message pad => message + pad) messages pads := by
  unfold encrypt_multi at h
  cases henc : encaps_multi P secnonce pubnonce deckey enckeys context idx with
  | error e => rw [henc] at h; simp at h
  | ok pads =>
    rw [henc] at h
    have h' : (if messages.length = pads.length then
        (Except.ok
          (List.zipWith (fun message pad => message + pad) messages pads)
          : Except PyError (List Scalar))
      else .error .valueError) = .ok cts := h
    refine ⟨pads, rfl, ?_⟩
    by_cases hlen : messages.length = pads.length
    · rw [if_pos hlen] at h'
      exact ⟨hlen, by injection h' with h'; exact h'.symm⟩
    · rw [if_neg hlen] at h'
      simp at h'

/-- Characterization of a successful `encaps_multi`: the pad vector has one
entry per encryption key, and each entry is the value of the self-pad or
sender-side ECDH computation at its position. -/
lemma encaps_multi_ok_parts (P : Prims) (secnonce pubnonce deckey : Bytes)
    (enckeys : List Bytes) (context : Bytes) (idx : Nat) (pads : List Scalar)
    (h : encaps_multi P secnonce pubnonce deckey enckeys context idx = .ok pads) :
    pads.length = enckeys.length ∧
      ∀ i, i < enckeys.length →
        (if i = idx then
          Except.ok (self_pad P deckey (toBytes4 i ++ context))
        else
          ecdh P secnonce pubnonce (enckeys.getD i []) (toBytes4 i ++ context)
            true) = Except.ok (pads.getD i 0) := by
  unfold encaps_multi at h
  obtain ⟨hlen, hget⟩ := mapM_eq_ok ((0 : Nat), ([] : Bytes)) (0 : Scalar) h
  refine ⟨by simpa using hlen, ?_⟩
  intro i hi
  have hg := hget i (by simpa using hi)
  rw [enum_getD enckeys i hi []] at hg
  simpa using hg

/-- C10: the pad that `encaps_multi` produces at the sender's own position
`idx` (and hence the ciphertext `encrypt_multi` produces there) depends only
on the decryption key and the per-recipient context `toBytes4 idx ++
context`: two successful runs that differ only in `secnonce` and `pubnonce`
produce the self-pad `self_pad deckey (toBytes4 idx ++ context)` at position
`idx` in both cases, and hence identical ciphertexts at position `idx`. -/
theorem C10_self_pad_independent_of_nonce (P : Prims)
    (secnonce1 pubnonce1 secnonce2 pubnonce2 deckey : Bytes)
    (enckeys : List Bytes) (messages : List Scalar) (context : Bytes)
    (idx : Nat) (hidx : idx < enckeys.length)
    (pads1 pads2 cts1 cts2 : List Scalar)
    (h1 : encaps_multi P secnonce1 pubnonce1 deckey enckeys context idx
      = .ok pads1)
    (h2 : encaps_multi P secnonce2 pubnonce2 deckey enckeys context idx
      = .ok pads2)
    (he1 : encrypt_multi P secnonce1 pubnonce1 deckey enckeys messages context
      idx = .ok cts1)
    (he2 : encrypt_multi P secnonce2 pubnonce2 deckey enckeys messages context
      idx = .ok cts2) :
    pads1.getD idx 0 = self_pad P deckey (toBytes4 idx ++ context)
    ∧ pads2.getD idx 0 = self_pad P deckey (toBytes4 idx ++ context)
    ∧ cts1.getD idx 0
        = messages.getD idx 0 + self_pad P deckey (toBytes4 idx ++ context)
    ∧ cts1.getD idx 0 = cts2.getD idx 0 := by
  have key : ∀ (sn pn : Bytes) (pads : List Scalar),
      encaps_multi P sn pn deckey enckeys context idx = .ok pads →
      pads.getD idx 0 = self_pad P deckey (toBytes4 idx ++ context) := by
    intro sn pn pads hp
    obtain ⟨hlen, hget⟩ := encaps_multi_ok_parts P sn pn deckey enckeys context
      idx pads hp
    have := hget idx hidx
    rw [if_pos rfl] at this
    injection this with this
    exact this.symm
  have hp1 := key secnonce1 pubnonce1 pads1 h1
  have hp2 := key secnonce2 pubnonce2 pads2 h2
  have hct : ∀ (sn pn : Bytes) (pads cts : List Scalar),
      encaps_multi P sn pn deckey enckeys context idx = .ok pads →
      encrypt_multi P sn pn deckey enckeys messages context idx = .ok cts →
      cts.getD idx 0 = messages.getD idx 0 + pads.getD idx 0 := by
    intro sn pn pads cts hp hc
    obtain ⟨pads', hp', hmlen, hzip⟩ := encrypt_multi_ok_parts P sn pn deckey
      enckeys messages context idx cts hc
    rw [hp] at hp'
    injection hp' with hp'
    subst hp'
    obtain ⟨hplen, _⟩ := encaps_multi_ok_parts P sn pn deckey enckeys context
      idx pads hp
    have hmi : idx < messages.length := by omega
    have hpi : idx < pads.length := by omega
    have hzi : idx < (List.zipWith
        (fun message pad => message + pad) messages pads).length := by
      simp; omega
    rw [hzip]
    rw [List.getD_eq_getElem?_getD, List.getD_eq_getElem?_getD,
      List.getD_eq_getElem?_getD, List.getElem?_eq_getElem hzi,
      List.getElem?_eq_getElem hmi, List.getElem?_eq_getElem hpi]
    simp [List.getElem_zipWith]
  have hc1 := hct secnonce1 pubnonce1 pads1 cts1 h1 he1
  have hc2 := hct secnonce2 pubnonce2 pads2 cts2 h2 he2
  refine ⟨hp1, hp2, by rw [hc1, hp1], by rw [hc1, hc2, hp1, hp2]⟩

/-- Witness for C10: two runs over two recipients with the nonces `[3]` and
`[4]`; the sender index is 0, where both runs produce the self-pad 7 and the
ciphertext 8. -/
theorem C10_self_pad_independent_of_nonce_witness :
    ([(7 : Scalar), 17]).getD 0 0 = self_pad toyPrims [7] (toBytes4 0 ++ [])
    ∧ ([(7 : Scalar), 19]).getD 0 0 = self_pad toyPrims [7] (toBytes4 0 ++ [])
    ∧ ([(8 : Scalar), 19]).getD 0 0
        = ([1, 2] : List Scalar).getD 0 0 + self_pad toyPrims [7] (toBytes4 0 ++ [])
    ∧ ([(8 : Scalar), 19]).getD 0 0 = ([(8 : Scalar), 21]).getD 0 0 :=
  C10_self_pad_independent_of_nonce toyPrims [3] [3] [4] [4] [7] [[7], [5]]
    [1, 2] [] 0 (by decide) [7, 17] [7, 19] [8, 19] [8, 21]
    (by rfl) (by rfl) (by rfl) (by rfl)

/-- Counterexample to C8: `participant_step1` performs no check that
`enckeys[idx]` is the caller's own encryption key.  Here `enckeys[0] = [5]`
while the encryption key corresponding to the supplied decryption key `[7]`
is `[7]`, yet the call succeeds instead of failing fast with a structural
error. -/
theorem C8_counterexample :
    (([[5]] : List Bytes).getD 0 [] ≠ toyPrims.pubkey_gen_plain [7])
    ∧ exceptOk (participant_step1 trivialSimpl toyPrims [1] [7] [[5]] 2 0 [2])
      = true :=
  ⟨by decide, by rfl⟩

/-- C8 as amended: `participant_step1` does not check that `enckeys[idx]` is
the caller's own encryption key; the correspondence between `deckey` and
`enckeys[idx]` is an unchecked assumption baked into the context derivation,
and the call succeeds whenever the share encryption succeeds, even when
`enckeys[idx]` differs from the encryption key derived from `deckey`. -/
theorem C8_amended_no_ownkey_check (S : SimplPedPop) (P : Prims)
    (seed deckey : Bytes) (enckeys : List Bytes) (t idx : Nat) (random : Bytes)
    (enc_shares : List Scalar)
    (_hmis : enckeys.getD idx [] ≠ P.pubkey_gen_plain deckey)
    (henc : encrypt_multi P
      (P.prf seed ("encpodpop secnonce")
        (random ++ serialize_enc_context t enckeys))
      (P.pubkey_gen_plain (P.prf seed ("encpodpop secnonce")
        (random ++ serialize_enc_context t enckeys)))
      deckey enckeys
      (S.participant_step1
        (derive_simpl_seed P seed
          (P.pubkey_gen_plain (P.prf seed ("encpodpop secnonce")
            (random ++ serialize_enc_context t enckeys)))
          (serialize_enc_context t enckeys))
        t enckeys.length idx).2.2
      (serialize_enc_context t enckeys) idx = .ok enc_shares) :
    exceptOk (participant_step1 S P seed deckey enckeys t idx random) = true := by
  simp only [participant_step1]
  rw [henc]
  rfl

/-- Witness for the amended C8: `enckeys[0] = [4]` does not match the
decryption key `[9]`, and step 1 still succeeds. -/
theorem C8_amended_no_ownkey_check_witness :
    exceptOk (participant_step1 trivialSimpl toyPrims [1] [9] [[4]] 2 0 [2])
      = true :=
  C8_amended_no_ownkey_check trivialSimpl toyPrims [1] [9] [[4]] 2 0 [2] [15]
    (by decide) (by rfl)

/-- Counterexample to C5: in the nonce-based variant
(`chilldkg_ref/encpedpop.py`), an encryption key that fails to decode as a
curve point during pad derivation (here `enckeys[0] = [99]`, rejected by the
Diffie-Hellman primitive of `failPrims`) makes `participant_step1` fail with
the unclassified point-decoding error `ValueError`, not with an
`InvalidContributionError` attributed to the owner's index. -/
theorem C5_counterexample :
    participant_step1 trivialSimpl failPrims [0] [0] [[99], [1]] 2 1 [0]
      = .error .valueError := by
  rfl

/-- `getD` on `List.range`, in range. -/
lemma range_getD (n k : Nat) (h : k < n) : (List.range n).getD k 0 = k := by
  simp [List.getD_eq_getElem?_getD, List.getElem?_range h]

/-- C5 as amended, positive half: in the older one-ECDH-per-recipient-pair
variant (`reference/encpedpop.py`), `signer_round1` catches the `ValueError`
raised when `enckeys[i]` fails to decode as a curve point and re-raises it as
an `InvalidContributionError` attributed to the owner index `i` (for the
first such `i` in iteration order, the own index being skipped). -/
theorem C5_amended_ref_classifies (S : SimplPedPop) (P : Prims)
    (seed : Bytes) (t n : Nat) (deckey : Bytes) (enckeys : List Bytes)
    (idx : Nat) (i : Nat) (hi : i < enckeys.length) (hne : i ≠ idx)
    (hbad : P.ecdh_raw_compressed deckey (enckeys.get ⟨i, hi⟩) = none)
    (hpre : ∀ k (hk : k < i), k ≠ idx →
      P.ecdh_raw_compressed deckey (enckeys.get ⟨k, Nat.lt_trans hk hi⟩) ≠ none) :
    Ref.signer_round1 S P seed t n deckey enckeys idx
      = .error (.invalidContribution (some i)
        ("Participant sent invalid encryption key")) := by
  simp only [Ref.signer_round1]
  have hmap : (List.range enckeys.length).mapM
      (fun i0 => (if i0 = idx then pure (0 : Scalar)
      else
        match Ref.encrypt P
            (((S.participant_step1
              (P.tagged_hash_bip_dkg ("EncPedPop seed")
                (seed ++ (toBytes4 t ++ enckeys.flatten)))
              t enckeys.length idx).2.2).getD i0 0)
            deckey (enckeys.getD i0 []) (toBytes4 t ++ enckeys.flatten) with
        | .error _ =>
          .error (.invalidContribution (some i0)
            ("Participant sent invalid encryption key"))
        | .ok c => .ok c : Except PyError Scalar))
      = Except.error (.invalidContribution (some i)
          ("Participant sent invalid encryption key")) := by
    refine mapM_eq_error 0 (List.range enckeys.length) i
      (by simpa using hi) ?_ ?_
    · intro k hk
      rw [range_getD enckeys.length k (Nat.lt_trans hk hi)]
      by_cases hkidx : k = idx
      · exact ⟨0, by rw [if_pos hkidx]; rfl⟩
      · rw [if_neg hkidx]
        have hgd : enckeys.getD k [] = enckeys.get ⟨k, Nat.lt_trans hk hi⟩ := by
          simp [List.getD_eq_getElem?_getD,
            List.getElem?_eq_getElem (Nat.lt_trans hk hi), List.get_eq_getElem]
        cases hdh : P.ecdh_raw_compressed deckey (enckeys.getD k []) with
        | none =>
          rw [hgd] at hdh
          exact absurd hdh (hpre k hk hkidx)
        | some s =>
          refine ⟨((S.participant_step1
              (P.tagged_hash_bip_dkg ("EncPedPop seed")
                (seed ++ (toBytes4 t ++ enckeys.flatten)))
              t enckeys.length idx).2.2).getD k 0
            + (P.int_from_bytes (P.tagged_hash_bip_dkg ("ECDH")
                (s ++ (toBytes4 t ++ enckeys.flatten))) : Scalar), ?_⟩
          unfold Ref.encrypt Ref.ecdh
          rw [hdh]
    · rw [range_getD enckeys.length i hi, if_neg hne]
      have hgd : enckeys.getD i [] = enckeys.get ⟨i, hi⟩ := by
        simp [List.getD_eq_getElem?_getD, List.getElem?_eq_getElem hi,
          List.get_eq_getElem]
      unfold Ref.encrypt Ref.ecdh
      rw [hgd, hbad]
  rw [hmap]

/-- Witness for the amended C5: `enckeys[1] = [99]` is rejected by the
Diffie-Hellman primitive of `failPrims` and `signer_round1` of the older
variant attributes the failure to participant 1. -/
theorem C5_amended_ref_classifies_witness :
    Ref.signer_round1 trivialSimpl failPrims [0] 2 2 [0] [[1], [99]] 0
      = .error (.invalidContribution (some 1)
        ("Participant sent invalid encryption key")) :=
  C5_amended_ref_classifies trivialSimpl failPrims [0] 2 2 [0] [[1], [99]] 0 1
    (by decide) (by decide) (by decide)
    (by intro k hk hkne; interval_cases k; simp_all)

/-- `find?` over an enumerated suffix returns the entry at the first
satisfying index. -/
lemma find?_enumFrom_first {α : Type} (p : Nat × α → Bool) :
    ∀ (l : List α) (s j : Nat) (hj : j < l.length),
      p (s + j, l.get ⟨j, hj⟩) = true →
      (∀ k (hk : k < j), p (s + k, l.get ⟨k, Nat.lt_trans hk hj⟩) = false) →
      (l.enumFrom s).find? p = some (s + j, l.get ⟨j, hj⟩) := by
  intro l
  induction l with
  | nil => intro s j hj; simp at hj
  | cons a l ih =>
    intro s j hj hpj hpre
    show ((s, a) :: l.enumFrom (s + 1)).find? p = _
    cases j with
    | zero =>
      rw [List.find?_cons_of_pos _ (by simpa using hpj)]
      simp
    | succ j' =>
      have h0 : p (s, a) = false := by simpa using hpre 0 (Nat.succ_pos j')
      rw [List.find?_cons_of_neg _ (by simp [h0])]
      have hj' : j' < l.length := by simpa using Nat.lt_of_succ_lt_succ hj
      have hstep := ih (s + 1) j' hj'
        (by
          have : s + 1 + j' = s + (j' + 1) := by omega
          rw [this]
          exact hpj)
        (by
          intro k hk
          have harith : s + 1 + k = s + (k + 1) := by omega
          rw [harith]
          exact hpre (k + 1) (by omega))
      rw [hstep]
      congr 1
      ext
      · omega
      · rfl

/-- C6: with matching counts of keys and messages, if some participant's
encrypted-share vector has length different from `n`, `coordinator_step`
fails with an `InvalidContributionError` carrying that participant's index
(the first offending index in iteration order), and no aggregated
ciphertexts are returned. -/
theorem C6_length_validation (S : SimplPedPop) (pmsgs : List (ParticipantMsg S))
    (t : Nat) (enckeys : List Bytes)
    (hlen : enckeys.length = pmsgs.length)
    (j : Nat) (hj : j < pmsgs.length)
    (hbad : (pmsgs.get ⟨j, hj⟩).enc_shares.length ≠ enckeys.length)
    (hfirst : ∀ k (hk : k < j),
      (pmsgs.get ⟨k, Nat.lt_trans hk hj⟩).enc_shares.length = enckeys.length) :
    coordinator_step S pmsgs t enckeys
      = .error (.invalidContribution (some j)
        ("Participant sent enc_shares with invalid length")) := by
  simp only [coordinator_step]
  rw [if_neg (by omega)]
  have hfind : pmsgs.enum.find?
      (fun ip => ip.2.enc_shares.length != enckeys.length)
      = some (j, pmsgs.get ⟨j, hj⟩) := by
    have := find?_enumFrom_first
      (fun ip => ip.2.enc_shares.length != enckeys.length) pmsgs 0 j hj
      (by simpa using hbad)
      (by intro k hk; simpa using hfirst k hk)
    simpa using this
  rw [hfind]

/-- Witness for C6: the second participant message carries one encrypted
share instead of two. -/
theorem C6_length_validation_witness :
    coordinator_step trivialSimpl [⟨(), [9], [1, 2]⟩, ⟨(), [8], [3]⟩] 2
        [[1], [2]]
      = .error (.invalidContribution (some 1)
        ("Participant sent enc_shares with invalid length")) :=
  C6_length_validation trivialSimpl [⟨(), [9], [1, 2]⟩, ⟨(), [8], [3]⟩] 2
    [[1], [2]] (by decide) 1 (by decide) (by decide)
    (by intro k hk; rw [Nat.lt_one_iff] at hk; subst hk; rfl)

/-- C3: with matching counts and every encrypted-share vector of length `n`,
`coordinator_step` succeeds and its aggregated-ciphertext output is, at every
recipient index `i`, the sum over all senders of
`participant_messages[sender].enc_shares[i]`. -/
theorem C3_aggregation (S : SimplPedPop) (pmsgs : List (ParticipantMsg S))
    (t : Nat) (enckeys : List Bytes)
    (hlen : enckeys.length = pmsgs.length)
    (hall : ∀ pm ∈ pmsgs, pm.enc_shares.length = enckeys.length) :
    (coordinator_step S pmsgs t enckeys).map (fun r => r.2.2.2)
      = .ok ((List.range enckeys.length).map (fun i =>
          (pmsgs.map (fun pmsg => pmsg.enc_shares.getD i 0)).sum))
    ∧ ∀ i, i < enckeys.length →
      ((List.range enckeys.length).map (fun i0 =>
        (pmsgs.map (fun pmsg => pmsg.enc_shares.getD i0 0)).sum)).getD i 0
        = (pmsgs.map (fun pmsg => pmsg.enc_shares.getD i 0)).sum := by
  constructor
  · simp only [coordinator_step]
    rw [if_neg (by omega)]
    have hfind : pmsgs.enum.find?
        (fun ip => ip.2.enc_shares.length != enckeys.length) = none := by
      rw [List.find?_eq_none]
      intro x hx
      simp [hall x.2 (List.snd_mem_of_mem_enum hx)]
    rw [hfind]
    rfl
  · intro i hi
    have hr : i < ((List.range enckeys.length).map (fun i0 =>
        (pmsgs.map (fun pmsg => pmsg.enc_shares.getD i0 0)).sum)).length := by
      simpa using hi
    rw [List.getD_eq_getElem?_getD, List.getElem?_eq_getElem hr]
    simp

/-- Witness for C3: two participants, aggregated shares `1+3 = 4` and
`2+4 = 6`. -/
theorem C3_aggregation_witness :
    (coordinator_step trivialSimpl [⟨(), [9], [1, 2]⟩, ⟨(), [8], [3, 4]⟩] 2
        [[1], [2]]).map (fun r => r.2.2.2) = .ok [(4 : Scalar), 6] :=
  (C3_aggregation trivialSimpl [⟨(), [9], [1, 2]⟩, ⟨(), [8], [3, 4]⟩] 2
    [[1], [2]] (by decide) (by decide)).1

/-- Sums of pointwise differences over a list of indices. -/
lemma sum_map_sub {γ : Type} [AddCommGroup γ] (f g : Nat → γ) (l : List Nat) :
    (l.map (fun x => f x - g x)).sum = (l.map f).sum - (l.map g).sum := by
  induction l with
  | nil => simp
  | cons a l ih =>
    simp only [List.map_cons, List.sum_cons, ih]
    abel

/-- The pad a successful `encrypt_multi` used at position `idx` is the
difference between its ciphertext and its message there, and that pad is the
value of the sender-side pad computation (self-pad when `idx` is the sender's
own index `s`, sender-side ECDH otherwise). -/
lemma sender_pad_at (P : Prims) (sn pn dk : Bytes) (enckeys : List Bytes)
    (msgs : List Scalar) (context : Bytes) (s idx : Nat) (ct : List Scalar)
    (hidx : idx < enckeys.length)
    (h : encrypt_multi P sn pn dk enckeys msgs context s = .ok ct) :
    (if idx = s then Except.ok (self_pad P dk (toBytes4 idx ++ context))
      else ecdh P sn pn (enckeys.getD idx []) (toBytes4 idx ++ context) true)
      = Except.ok (ct.getD idx 0 - msgs.getD idx 0) := by
  obtain ⟨pads, hp, hmlen, hzip⟩ := encrypt_multi_ok_parts P sn pn dk enckeys
    msgs context s ct h
  obtain ⟨hplen, hpget⟩ := encaps_multi_ok_parts P sn pn dk enckeys context s
    pads hp
  have hctidx : ct.getD idx 0 = msgs.getD idx 0 + pads.getD idx 0 := by
    have hmi : idx < msgs.length := by omega
    have hpi : idx < pads.length := by omega
    have hzi : idx < (List.zipWith
        (fun message pad => message + pad) msgs pads).length := by
      simp
      omega
    rw [hzip, List.getD_eq_getElem?_getD, List.getD_eq_getElem?_getD,
      List.getD_eq_getElem?_getD, List.getElem?_eq_getElem hzi,
      List.getElem?_eq_getElem hmi, List.getElem?_eq_getElem hpi]
    simp [List.getElem_zipWith]
  have hpad : pads.getD idx 0 = ct.getD idx 0 - msgs.getD idx 0 := by
    rw [hctidx]
    ring
  rw [← hpad]
  exact hpget idx hidx

/-- C1 (round-trip): for `n ≥ 1` participants with valid long-term keypairs
(`enckeys` the public images of `deckeys`) and valid nonce keypairs
(`pubnonces` the public images of `secnonces`), if every sender `s` computes
its ciphertext vector with `encrypt_multi(secnonce_s, pubnonce_s, deckey_s,
enckeys, messages_s, context, s)`, then for the recipient `idx`,
`decrypt_sum(deckey_idx, enckeys[idx], pubnonces, Σ_s ciphertexts_s[idx],
context, idx)` succeeds and returns `Σ_s messages_s[idx]`: aggregation
followed by decryption recovers the sum of the plaintexts addressed to that
recipient.  The raw Diffie-Hellman primitive is assumed symmetric on valid
keypairs. -/
theorem C1_roundtrip (P : Prims)
    (hsymm : ∀ a b : Bytes, P.ecdh_libsecp256k1 a (P.pubkey_gen_plain b)
      = P.ecdh_libsecp256k1 b (P.pubkey_gen_plain a))
    (deckeys secnonces : List Bytes) (msgss : List (List Scalar))
    (enckeys pubnonces : List Bytes) (context : Bytes) (idx : Nat)
    (cts : List (List Scalar))
    (henc : enckeys = deckeys.map P.pubkey_gen_plain)
    (hpn : pubnonces = secnonces.map P.pubkey_gen_plain)
    (hsec : secnonces.length = deckeys.length)
    (hmsg : msgss.length = deckeys.length)
    (hcts : cts.length = deckeys.length)
    (hidx : idx < deckeys.length)
    (hct : ∀ s, s < deckeys.length →
      encrypt_multi P (secnonces.getD s []) (pubnonces.getD s [])
        (deckeys.getD s []) enckeys (msgss.getD s []) context s
        = .ok (cts.getD s [])) :
    decrypt_sum P (deckeys.getD idx []) (enckeys.getD idx []) pubnonces
      ((cts.map (fun c => c.getD idx 0)).sum) context idx
      = .ok ((msgss.map (fun m => m.getD idx 0)).sum) := by
  have henclen : enckeys.length = deckeys.length := by rw [henc]; simp
  have hpnlen : pubnonces.length = deckeys.length := by
    rw [hpn]
    simpa using hsec
  have hgenc : ∀ i, i < deckeys.length →
      enckeys.getD i [] = P.pubkey_gen_plain (deckeys.getD i []) := by
    intro i hi
    rw [henc]
    simp [List.getD_eq_getElem?_getD, List.getElem?_map,
      List.getElem?_eq_getElem hi]
  have hgpn : ∀ i, i < deckeys.length →
      pubnonces.getD i [] = P.pubkey_gen_plain (secnonces.getD i []) := by
    intro i hi
    rw [hpn]
    have hi' : i < secnonces.length := by omega
    simp [List.getD_eq_getElem?_getD, List.getElem?_map,
      List.getElem?_eq_getElem hi']
  have hidxe : idx < enckeys.length := by omega
  have hloop : ∀ ip, ip ∈ pubnonces.enum →
      (if ip.1 = idx then
        Except.ok (self_pad P (deckeys.getD idx []) (toBytes4 idx ++ context))
      else ecdh P (deckeys.getD idx []) (enckeys.getD idx []) ip.2
        (toBytes4 idx ++ context) false)
      = Except.ok ((cts.getD ip.1 []).getD idx 0
          - (msgss.getD ip.1 []).getD idx 0) := by
    intro ip hip
    obtain ⟨k, hk, hEq⟩ := List.mem_iff_getElem.mp hip
    rw [List.getElem_enum] at hEq
    obtain ⟨i, pn⟩ := ip
    have hki : k = i := congrArg Prod.fst hEq
    have hpnk : pubnonces.get ⟨k, by simpa using hk⟩ = pn := congrArg Prod.snd hEq
    subst hki
    have hkn : k < deckeys.length := by
      have := hk
      simp only [List.enum_length] at this
      omega
    have hpneq : pn = pubnonces.getD k [] := by
      rw [← hpnk]
      have hk' : k < pubnonces.length := by omega
      simp [List.getD_eq_getElem?_getD, List.getElem?_eq_getElem hk',
        List.get_eq_getElem]
    have hsend := sender_pad_at P (secnonces.getD k []) (pubnonces.getD k [])
      (deckeys.getD k []) enckeys (msgss.getD k []) context k idx
      (cts.getD k []) hidxe (hct k hkn)
    by_cases hkidx : k = idx
    · subst hkidx
      rw [if_pos rfl] at hsend ⊢
      exact hsend
    · have hidxk : ¬ idx = k := fun hcontra => hkidx hcontra.symm
      rw [if_neg hkidx]
      rw [if_neg hidxk] at hsend
      show ecdh P (deckeys.getD idx []) (enckeys.getD idx []) pn
        (toBytes4 idx ++ context) false = _
      unfold ecdh at hsend ⊢
      rw [hpneq, hgpn k hkn, hsymm (deckeys.getD idx []) (secnonces.getD k [])]
      rw [hgenc idx hidx] at hsend ⊢
      cases hdh : P.ecdh_libsecp256k1 (secnonces.getD k [])
          (P.pubkey_gen_plain (deckeys.getD idx [])) with
      | none =>
        rw [hdh] at hsend
        simp at hsend
      | some d =>
        rw [hdh] at hsend
        rw [← hsend]
        rw [hgpn k hkn]
        rfl
  simp only [decrypt_sum]
  rw [if_neg (by omega)]
  rw [decrypt_sum_loop_eq_ok P (deckeys.getD idx []) (enckeys.getD idx [])
    (toBytes4 idx ++ context) idx
    (fun ip => (cts.getD ip.1 []).getD idx 0 - (msgss.getD ip.1 []).getD idx 0)
    pubnonces.enum ((cts.map (fun c => c.getD idx 0)).sum) hloop]
  have hmap_enum : pubnonces.enum.map
      (fun ip => (cts.getD ip.1 []).getD idx 0 - (msgss.getD ip.1 []).getD idx 0)
      = (List.range deckeys.length).map
        (fun s => (cts.getD s []).getD idx 0 - (msgss.getD s []).getD idx 0) := by
    apply List.ext_getElem
    · simp [hpnlen]
    · intro k h1 h2
      simp [List.getElem_map, List.getElem_enum, List.getElem_range]
  have hcts_map : (List.range deckeys.length).map
      (fun s => (cts.getD s []).getD idx 0)
      = cts.map (fun c => c.getD idx 0) := by
    apply List.ext_getElem
    · simp [hcts]
    · intro k h1 h2
      have hk0 : k < deckeys.length := by simpa using h1
      have hk' : k < cts.length := by omega
      simp [List.getElem_map, List.getElem_range,
        List.getD_eq_getElem?_getD, List.getElem?_eq_getElem hk']
  have hmsgs_map : (List.range deckeys.length).map
      (fun s => (msgss.getD s []).getD idx 0)
      = msgss.map (fun m => m.getD idx 0) := by
    apply List.ext_getElem
    · simp [hmsg]
    · intro k h1 h2
      have hk0 : k < deckeys.length := by simpa using h1
      have hk' : k < msgss.length := by omega
      simp [List.getElem_map, List.getElem_range,
        List.getD_eq_getElem?_getD, List.getElem?_eq_getElem hk']
  rw [hmap_enum, sum_map_sub (fun s => (cts.getD s []).getD idx 0)
    (fun s => (msgss.getD s []).getD idx 0) (List.range deckeys.length),
    hcts_map, hmsgs_map]
  congr 1
  ring

/-- Witness for C1: two participants with keypairs `[1], [2]`, nonces
`[3], [4]` and message vectors `[10, 20]` and `[30, 40]`; the aggregated
ciphertext addressed to recipient 0 is `11 + 40 = 51` and decrypts to
`10 + 30 = 40`. -/
theorem C1_roundtrip_witness :
    decrypt_sum toyPrims [1] [1] [[3], [4]] 51 [] 0 = .ok 40 :=
  C1_roundtrip toyPrims toyPrims_dh_symm [[1], [2]] [[3], [4]]
    [[10, 20], [30, 40]] [[1], [2]] [[3], [4]] [] 0 [[11, 31], [40, 43]]
    (by rfl) (by rfl) (by decide) (by decide) (by decide) (by decide)
    (by
      intro s hs
      have hs2 : s < 2 := by simpa using hs
      interval_cases s
      · rfl
      · rfl)
